import Mathlib

/-!
Shallow embedding of the `timely` repository's core logic
(`pkg/timeutils/durations.go` and `pkg/timeutils/parser.go`).

Modelling choices:
* A Go `time.Time` is modelled as an `Int` (an absolute instant at the
  resolution relevant to the claims, e.g. minutes since an epoch).
  `t.Before(u)` is `t < u`, `u.Sub(t)` is `u - t`, and `t.IsZero()` is
  `t = 0` (the zero `time.Time{}` sentinel maps to `0`, which precedes
  every realistic instant).
* `sort.Slice(ts, less = Before)` sorts ascending; on `Int` values any
  correct sort yields the same list, modelled by `List.insertionSort`.
* Go strings are modelled as `List Char`; `ParseTime`'s result is a
  `TimeOfDay` record holding the fields the code sets via `time.Date`
  (hour, minute, second, nanosecond — the calendar-date fields depend on
  the wall clock and are outside every claim).
* Fallible Go functions returning `(T, error)` are modelled as `Option`.
-/

/-- Model of `Durations` (durations.go): an ordered collection of `time.Time` values. -/
abbrev Durations := List Int

/-- Model of `sortTimesAscending` (durations.go): sort a slice of times ascending. -/
def sortTimesAscending (times : List Int) : List Int :=
  times.insertionSort (· ≤ ·)

/-- Model of `Durations.Append` (durations.go): append the new time, then re-sort. -/
def Durations.Append (durations : Durations) (t : Int) : Durations :=
  sortTimesAscending (durations ++ [t])

/-- Model of `Durations.RemoveItem` (durations.go): if the index is out of bounds
return the collection unchanged; otherwise drop the element at `index`
(`append(duration[:index], duration[index+1:]...)`) and re-sort.
The Go index is a machine `int`, so it is modelled as `Int` to cover
negative indices. -/
def Durations.RemoveItem (duration : Durations) (index : Int) : Durations :=
  if index < 0 ∨ (duration.length : Int) ≤ index then duration
  else sortTimesAscending (duration.take index.toNat ++ duration.drop (index.toNat + 1))

/-- The pair-summation loop of `SumPairedDurationsWithNow` (durations.go):
walk the list two entries at a time; a pair `(start, end)` contributes
`end - start` when that is positive and `0` otherwise; a trailing element
without a partner is skipped by the `i+1 >= len` break. -/
def pairedSum : List Int → Int
  | [] => 0
  | [_] => 0
  | start :: stop :: rest => (if 0 < stop - start then stop - start else 0) + pairedSum rest

/-- Model of `SumPairedDurationsWithNow` (durations.go): return `0` for an empty
collection; copy the input; when the length is odd and `now` is not the
zero sentinel, append `now`; re-sort ascending; sum consecutive pairs. -/
def SumPairedDurationsWithNow (times : Durations) (now : Int) : Int :=
  if times.length = 0 then 0
  else
    let tlist := if times.length % 2 = 1 ∧ now ≠ 0 then times ++ [now] else times
    pairedSum (sortTimesAscending tlist)

/-- The plain pair sum the spec describes for an already-sorted list:
`end − start` over consecutive pairs `(0,1), (2,3), …`, with no clamping.
On a sorted list it coincides with `pairedSum` (proved below). -/
def pairedSumPlain : List Int → Int
  | [] => 0
  | [_] => 0
  | start :: stop :: rest => (stop - start) + pairedSumPlain rest

/-- A time-of-day value: the fields `ParseTime` (parser.go) sets through
`time.Date(_, _, _, hours, minutes, 0, 0, time.Local)`. -/
structure TimeOfDay where
  hour : Nat
  minute : Nat
  second : Nat
  nano : Nat
deriving DecidableEq, Repr

/-- Model of `validTimeFormat` (parser.go): the anchored regular expression
`^(\d{1,4}|\d{1,2}:\d{2})$` — either 1 to 4 decimal digits, or 1–2 digits,
one colon, exactly 2 digits. -/
def validTimeFormat (cs : List Char) : Bool :=
  (decide (1 ≤ cs.length) && decide (cs.length ≤ 4) && cs.all Char.isDigit)
    || (match cs with
        | [a, ':', x, y] => a.isDigit && x.isDigit && y.isDigit
        | [a, b, ':', x, y] => a.isDigit && b.isDigit && x.isDigit && y.isDigit
        | _ => false)

/-- The normalization `switch` of `ParseTime` (parser.go), applied after the
colon is stripped: length 1 or 2 is padded by `fmt.Sprintf("%02s00", s)`
(zero-pad to two characters, then append "00"), length 3 is left-padded
with one '0', length 4 is kept, and any other length is an error. -/
def padNormalized (ds : List Char) : Option (List Char) :=
  match ds.length with
  | 1 => some ('0' :: ds ++ ['0', '0'])
  | 2 => some (ds ++ ['0', '0'])
  | 3 => some ('0' :: ds)
  | 4 => some ds
  | _ => none

/-- Model of `strconv.Atoi` on a string of decimal digits (the only shape it is
applied to inside `ParseTime`, where every character is a digit). -/
def digitsToNat (ds : List Char) : Nat :=
  ds.foldl (fun a c => 10 * a + (c.toNat - 48)) 0

/-- The range-validation and construction tail of `ParseTime` (parser.go):
given the 4-digit normalized string, read hours from the first two
characters and minutes from the last two, reject hours above 23 and
minutes above 59, and build the result with zero seconds and nanoseconds. -/
def interpretHHMM (p : List Char) : Option TimeOfDay :=
  let hours := digitsToNat (p.take 2)
  let minutes := digitsToNat (p.drop 2)
  if 23 < hours then none
  else if 59 < minutes then none
  else some ⟨hours, minutes, 0, 0⟩

/-- Model of `ParseTime` (parser.go): reject input not matching `validTimeFormat`;
strip every colon (`strings.ReplaceAll`); normalize by length; validate
ranges; return the time-of-day with seconds and sub-seconds zeroed. -/
def ParseTime (timeStr : List Char) : Option TimeOfDay :=
  if validTimeFormat timeStr then
    match padNormalized (timeStr.filter (fun c => c ≠ ':')) with
    | some p => interpretHHMM p
    | none => none
  else none

/-- Two-digit zero-padded decimal rendering of a field value below 100,
as Go's `Format("15:04")` renders hours and minutes. -/
def pad2 (n : Nat) : List Char :=
  [Nat.digitChar (n / 10), Nat.digitChar (n % 10)]

/-- Model of `FormatTime` (durations.go): `d.Format("15:04")`, the zero-padded
24-hour `HH:MM` rendering of a time-of-day value. -/
def FormatTime (t : TimeOfDay) : List Char :=
  pad2 t.hour ++ ':' :: pad2 t.minute

/-- The normalized 4-digit string of an input, for stating the parser
claims: colon stripped, then the length-based padding (junk `[]` when the
padding stage rejects, which the grammar rules out). -/
def normalizedDigits (cs : List Char) : List Char :=
  (padNormalized (cs.filter (fun c => c ≠ ':'))).getD []

/-- The hour `ParseTime`'s range check sees for an input. -/
def hoursOf (cs : List Char) : Nat :=
  digitsToNat ((normalizedDigits cs).take 2)

/-- The minute `ParseTime`'s range check sees for an input. -/
def minutesOf (cs : List Char) : Nat :=
  digitsToNat ((normalizedDigits cs).drop 2)

/-- Spec-side definition (the claim speaks of the *trimmed* input):
`strings.TrimSpace`-style removal of leading and trailing whitespace.
The source of `ParseTime` applies no such trimming. -/
def specTrim (cs : List Char) : List Char :=
  ((cs.dropWhile Char.isWhitespace).reverse.dropWhile Char.isWhitespace).reverse

/-! ### Lemmas about sorting and the pair sum -/

theorem sorted_sortTimesAscending (l : List Int) :
    List.Sorted (· ≤ ·) (sortTimesAscending l) :=
  List.sorted_insertionSort _ l

theorem length_sortTimesAscending (l : List Int) :
    (sortTimesAscending l).length = l.length :=
  (List.perm_insertionSort _ l).length_eq

theorem sortTimesAscending_eq_of_sorted {l : List Int}
    (h : List.Sorted (· ≤ ·) l) : sortTimesAscending l = l :=
  h.insertionSort_eq

theorem pairedSum_nonneg (l : List Int) : 0 ≤ pairedSum l := by
  induction l using pairedSum.induct with
  | case1 => simp [pairedSum]
  | case2 a => simp [pairedSum]
  | case3 start stop rest ih =>
    unfold pairedSum
    split <;> omega

theorem pairedSum_append_even (l : List Int) (a : Int) (h : l.length % 2 = 0) :
    pairedSum (l ++ [a]) = pairedSum l := by
  induction l using pairedSum.induct with
  | case1 => rfl
  | case2 b => simp at h
  | case3 start stop rest ih =>
    have h2 : rest.length % 2 = 0 := by
      simp only [List.length_cons] at h; omega
    simp only [List.cons_append, pairedSum, List.append_eq]
    rw [ih h2]

theorem pairedSum_dropLast_of_odd (l : List Int) (h : l.length % 2 = 1) :
    pairedSum l = pairedSum l.dropLast := by
  have hne : l ≠ [] := by
    intro e; subst e; simp at h
  have heven : l.dropLast.length % 2 = 0 := by
    simp only [List.length_dropLast]; omega
  conv_lhs => rw [← List.dropLast_append_getLast hne]
  rw [pairedSum_append_even _ _ heven]

theorem pairedSum_eq_plain_of_sorted (l : List Int) :
    List.Sorted (· ≤ ·) l → pairedSum l = pairedSumPlain l := by
  induction l using pairedSum.induct with
  | case1 => intro _; rfl
  | case2 a => intro _; rfl
  | case3 start stop rest ih =>
    intro hs
    have h1 : start ≤ stop := (List.sorted_cons.mp hs).1 stop (by simp)
    have h2 : List.Sorted (· ≤ ·) rest :=
      (List.sorted_cons.mp (List.sorted_cons.mp hs).2).2
    simp only [pairedSum, pairedSumPlain, ih h2]
    split <;> omega

/-! ### Claims about the ledger engine -/

/-- C1: for every odd-length collection and every non-zero-sentinel `now`,
`SumPairedDurationsWithNow` appends `now` to a copy, re-sorts the extended
copy ascending, and sums `end − start` over consecutive pairs
`(0,1), (2,3), …`; in particular for {15:00, 10:00, 07:00} (minutes
900, 600, 420) with `now` = 16:00 (960) the result is 4 hours (240
minutes), pairing (07:00, 10:00) and (15:00, 16:00). -/
theorem claim_C1_odd_nonzero_now_appends_sorts_sums :
    (∀ (times : Durations) (now : Int), times.length % 2 = 1 → now ≠ 0 →
      SumPairedDurationsWithNow times now
        = pairedSumPlain (sortTimesAscending (times ++ [now]))) ∧
    SumPairedDurationsWithNow [900, 600, 420] 960 = 240 := by
  constructor
  · intro times now hodd hnz
    have h0 : ¬ times.length = 0 := by omega
    have hc : times.length % 2 = 1 ∧ now ≠ 0 := ⟨hodd, hnz⟩
    simp only [SumPairedDurationsWithNow, if_neg h0, if_pos hc]
    exact pairedSum_eq_plain_of_sorted _ (sorted_sortTimesAscending _)
  · decide

theorem claim_C1_odd_nonzero_now_appends_sorts_sums_witness :
    ([900, 600, 420] : Durations).length % 2 = 1 ∧ (960 : Int) ≠ 0 ∧
    SumPairedDurationsWithNow [900, 600, 420] 960
      = pairedSumPlain (sortTimesAscending ([900, 600, 420] ++ [960])) :=
  ⟨by decide, by decide,
    claim_C1_odd_nonzero_now_appends_sorts_sums.1 [900, 600, 420] 960
      (by decide) (by decide)⟩

/-- C2: for every odd-length collection, calling `SumPairedDurationsWithNow`
with the zero sentinel as `now` does not extend the collection: the
chronologically last entry (the last of the sorted copy) contributes to no
pair and the result is the paired sum of the remaining even-length prefix;
in particular {08:00, 12:00, 13:00} (minutes 480, 720, 780) with the zero
sentinel gives 4 hours (240 minutes). -/
theorem claim_C2_odd_zero_now_drops_trailing :
    (∀ times : Durations, times.length % 2 = 1 →
      SumPairedDurationsWithNow times 0
        = pairedSum ((sortTimesAscending times).dropLast)) ∧
    SumPairedDurationsWithNow [480, 720, 780] 0 = 240 := by
  constructor
  · intro times hodd
    have h0 : ¬ times.length = 0 := by omega
    have hc : ¬ (times.length % 2 = 1 ∧ (0 : Int) ≠ 0) := by simp
    simp only [SumPairedDurationsWithNow, if_neg h0, if_neg hc]
    exact pairedSum_dropLast_of_odd _
      (by rw [length_sortTimesAscending]; exact hodd)
  · decide

theorem claim_C2_odd_zero_now_drops_trailing_witness :
    ([480, 720, 780] : Durations).length % 2 = 1 ∧
    SumPairedDurationsWithNow [480, 720, 780] 0
      = pairedSum ((sortTimesAscending [480, 720, 780]).dropLast) :=
  ⟨by decide, claim_C2_odd_zero_now_drops_trailing.1 [480, 720, 780] (by decide)⟩

/-- C4: for every even-length collection the result does not depend on
`now` at all; in particular {08:00, 12:00, 13:00, 17:00} (minutes
480, 720, 780, 1020) gives 8 hours (480 minutes) for any `now`, zero or
not. -/
theorem claim_C4_even_length_ignores_now :
    (∀ (times : Durations) (now1 now2 : Int), times.length % 2 = 0 →
      SumPairedDurationsWithNow times now1 = SumPairedDurationsWithNow times now2) ∧
    SumPairedDurationsWithNow [480, 720, 780, 1020] 37 = 480 ∧
    SumPairedDurationsWithNow [480, 720, 780, 1020] 0 = 480 := by
  refine ⟨?_, by decide, by decide⟩
  intro times now1 now2 he
  have hodd : ¬ times.length % 2 = 1 := by omega
  simp [SumPairedDurationsWithNow, hodd]

theorem claim_C4_even_length_ignores_now_witness :
    ([480, 720, 780, 1020] : Durations).length % 2 = 0 ∧
    SumPairedDurationsWithNow [480, 720, 780, 1020] 37
      = SumPairedDurationsWithNow [480, 720, 780, 1020] 0 :=
  ⟨by decide, claim_C4_even_length_ignores_now.1 [480, 720, 780, 1020] 37 0 (by decide)⟩

/-- C5: in `SumPairedDurationsWithNow`, a consecutive pair whose end is not
strictly after its start contributes exactly zero (never a negative
amount), an incomplete trailing singleton after an even-length prefix
contributes zero, and the empty collection yields zero. -/
theorem claim_C5_nonpositive_pairs_and_singleton_contribute_zero :
    (∀ now : Int, SumPairedDurationsWithNow [] now = 0) ∧
    (∀ (start stop : Int) (rest : List Int), stop ≤ start →
      pairedSum (start :: stop :: rest) = pairedSum rest) ∧
    (∀ (l : List Int) (a : Int), l.length % 2 = 0 →
      pairedSum (l ++ [a]) = pairedSum l) := by
  refine ⟨fun now => rfl, ?_, pairedSum_append_even⟩
  intro start stop rest h
  have hns : ¬ (0 < stop - start) := by omega
  simp [pairedSum, hns]

theorem claim_C5_nonpositive_pairs_and_singleton_contribute_zero_witness :
    SumPairedDurationsWithNow [] 5 = 0 ∧
    ((3 : Int) ≤ 7 ∧ pairedSum [7, 3, 1, 2] = pairedSum [1, 2]) ∧
    (([4, 9] : List Int).length % 2 = 0 ∧ pairedSum ([4, 9] ++ [6]) = pairedSum [4, 9]) :=
  ⟨claim_C5_nonpositive_pairs_and_singleton_contribute_zero.1 5,
   ⟨by decide, claim_C5_nonpositive_pairs_and_singleton_contribute_zero.2.1 7 3 [1, 2] (by decide)⟩,
   ⟨by decide, claim_C5_nonpositive_pairs_and_singleton_contribute_zero.2.2 [4, 9] 6 (by decide)⟩⟩

/-- C10: for every input collection (any length, any order) and every
`now`, `SumPairedDurationsWithNow` returns a non-negative total. -/
theorem claim_C10_total_nonneg (times : Durations) (now : Int) :
    0 ≤ SumPairedDurationsWithNow times now := by
  unfold SumPairedDurationsWithNow
  split
  · exact le_refl 0
  · exact pairedSum_nonneg _

/-- C9: sortedness is an invariant — `Append` yields a sorted collection
from any input, and `RemoveItem` on a sorted collection yields a sorted
collection, for every index. -/
theorem claim_C9_operations_preserve_sorted :
    (∀ (durations : Durations) (t : Int),
      List.Sorted (· ≤ ·) (durations.Append t)) ∧
    (∀ (durations : Durations) (index : Int), List.Sorted (· ≤ ·) durations →
      List.Sorted (· ≤ ·) (durations.RemoveItem index)) := by
  constructor
  · intro d t
    exact sorted_sortTimesAscending _
  · intro d i hs
    unfold Durations.RemoveItem
    split
    · exact hs
    · exact sorted_sortTimesAscending _

theorem claim_C9_operations_preserve_sorted_witness :
    List.Sorted (· ≤ ·) ([1, 2] : Durations) ∧
    List.Sorted (· ≤ ·) (Durations.RemoveItem [1, 2] 0) := by
  have hs : List.Sorted (· ≤ ·) ([1, 2] : Durations) := by decide
  exact ⟨hs, claim_C9_operations_preserve_sorted.2 [1, 2] 0 hs⟩

/-- C8 counterexample: the claim asserts order preservation for *every*
sequence, but `RemoveItem` re-sorts the remainder. On the unsorted input
[1, 3, 2], removing index 0 yields [2, 3], not the order-preserving
remainder [3, 2] (`eraseIdx`). -/
theorem claim_C8_counterexample :
    Durations.RemoveItem [1, 3, 2] 0 = [2, 3] ∧
    Durations.RemoveItem [1, 3, 2] 0 ≠ List.eraseIdx [1, 3, 2] 0 := by
  decide

/-- C8 (amended): for every sequence, a valid index shrinks the length by
exactly one; on a *sorted* sequence the result is exactly the
order-preserving removal `eraseIdx` (on unsorted input the remainder is
re-sorted instead); an out-of-bounds index returns the input unchanged. -/
theorem claim_C8_removeItem_amended :
    (∀ (l : Durations) (i : Int), 0 ≤ i → i.toNat < l.length →
      (l.RemoveItem i).length = l.length - 1) ∧
    (∀ (l : Durations) (i : Int), 0 ≤ i → i.toNat < l.length →
      List.Sorted (· ≤ ·) l → l.RemoveItem i = l.eraseIdx i.toNat) ∧
    (∀ (l : Durations) (i : Int), i < 0 ∨ (l.length : Int) ≤ i →
      l.RemoveItem i = l) := by
  refine ⟨?_, ?_, ?_⟩
  · intro l i h0 hlt
    have hcond : ¬ (i < 0 ∨ (l.length : Int) ≤ i) := by omega
    unfold Durations.RemoveItem
    rw [if_neg hcond, length_sortTimesAscending]
    simp only [List.length_append, List.length_take, List.length_drop]
    omega
  · intro l i h0 hlt hs
    have hcond : ¬ (i < 0 ∨ (l.length : Int) ≤ i) := by omega
    unfold Durations.RemoveItem
    rw [if_neg hcond, ← List.eraseIdx_eq_take_drop_succ]
    exact sortTimesAscending_eq_of_sorted
      (List.Pairwise.sublist (List.eraseIdx_sublist l i.toNat) hs)
  · intro l i h
    unfold Durations.RemoveItem
    rw [if_pos h]

theorem claim_C8_removeItem_amended_witness :
    (0 : Int) ≤ 1 ∧ (1 : Int).toNat < ([5, 7, 9] : Durations).length ∧
    (Durations.RemoveItem [5, 7, 9] 1).length = ([5, 7, 9] : Durations).length - 1 ∧
    List.Sorted (· ≤ ·) ([5, 7, 9] : Durations) ∧
    Durations.RemoveItem [5, 7, 9] 1 = List.eraseIdx [5, 7, 9] (1 : Int).toNat ∧
    Durations.RemoveItem [5, 7, 9] (-2) = [5, 7, 9] := by
  have hs : List.Sorted (· ≤ ·) ([5, 7, 9] : Durations) := by decide
  refine ⟨by decide, by decide, ?_, hs, ?_, ?_⟩
  · exact claim_C8_removeItem_amended.1 [5, 7, 9] 1 (by decide) (by decide)
  · exact claim_C8_removeItem_amended.2.1 [5, 7, 9] 1 (by decide) (by decide) hs
  · exact claim_C8_removeItem_amended.2.2 [5, 7, 9] (-2) (Or.inl (by decide))

/-! ### Lemmas about the parser -/

theorem ne_colon_of_isDigit {c : Char} (h : c.isDigit = true) : c ≠ ':' := by
  intro he
  subst he
  exact absurd h (by decide)

theorem filter_colon_of_all_digits {ds : List Char}
    (h : ds.all Char.isDigit = true) :
    ds.filter (fun c => c ≠ ':') = ds := by
  apply List.filter_eq_self.mpr
  intro a ha
  exact decide_eq_true (ne_colon_of_isDigit (List.all_eq_true.mp h a ha))

theorem valid_filter_length {cs : List Char} (h : validTimeFormat cs = true) :
    1 ≤ (cs.filter (fun c => c ≠ ':')).length ∧
      (cs.filter (fun c => c ≠ ':')).length ≤ 4 := by
  unfold validTimeFormat at h
  rw [Bool.or_eq_true] at h
  rcases h with h | h
  · rw [Bool.and_eq_true, Bool.and_eq_true] at h
    obtain ⟨⟨h1, h2⟩, h3⟩ := h
    rw [filter_colon_of_all_digits h3]
    exact ⟨of_decide_eq_true h1, of_decide_eq_true h2⟩
  · split at h
    · rw [Bool.and_eq_true, Bool.and_eq_true] at h
      obtain ⟨⟨ha, hx⟩, hy⟩ := h
      simp [List.filter_cons, ne_colon_of_isDigit ha, ne_colon_of_isDigit hx,
        ne_colon_of_isDigit hy]
    · rw [Bool.and_eq_true, Bool.and_eq_true, Bool.and_eq_true] at h
      obtain ⟨⟨⟨ha, hb⟩, hx⟩, hy⟩ := h
      simp [List.filter_cons, ne_colon_of_isDigit ha, ne_colon_of_isDigit hb,
        ne_colon_of_isDigit hx, ne_colon_of_isDigit hy]
    · exact absurd h (by decide)

theorem padNormalized_isSome_of_valid {cs : List Char}
    (h : validTimeFormat cs = true) :
    (padNormalized (cs.filter (fun c => c ≠ ':'))).isSome = true := by
  obtain ⟨h1, h4⟩ := valid_filter_length h
  have hcases : (cs.filter (fun c => c ≠ ':')).length = 1 ∨
      (cs.filter (fun c => c ≠ ':')).length = 2 ∨
      (cs.filter (fun c => c ≠ ':')).length = 3 ∨
      (cs.filter (fun c => c ≠ ':')).length = 4 := by omega
  rcases hcases with he | he | he | he <;> (unfold padNormalized; rw [he]; rfl)

/-! ### Claims about the parser -/

/-- C3 counterexample: the claim ties acceptance to the *trimmed* input,
but `ParseTime` applies no trimming — its anchored regular expression sees
the raw string. For the input " 7" the trimmed form "7" matches the
grammar with in-range hour and minute, yet `ParseTime` fails. -/
theorem claim_C3_counterexample :
    validTimeFormat (specTrim [' ', '7']) = true ∧
    hoursOf (specTrim [' ', '7']) ≤ 23 ∧
    minutesOf (specTrim [' ', '7']) ≤ 59 ∧
    (ParseTime [' ', '7']).isSome = false := by
  decide

/-- C3 (amended): `ParseTime` succeeds exactly when the raw, untrimmed
input matches the accepted grammar (1–4 digits, or 1–2 digits, one colon,
exactly 2 digits) and the normalized hour is at most 23 and minute at most
59; every other input — empty, whitespace-bearing, non-digit, hour ≥ 24,
minute ≥ 60 — fails uniformly (the single failure outcome `none`). -/
theorem claim_C3_acceptance_amended (cs : List Char) :
    (ParseTime cs).isSome = true ↔
      (validTimeFormat cs = true ∧ hoursOf cs ≤ 23 ∧ minutesOf cs ≤ 59) := by
  by_cases hv : validTimeFormat cs = true
  · have hp := padNormalized_isSome_of_valid hv
    obtain ⟨p, hpe⟩ := Option.isSome_iff_exists.mp hp
    have hnd : normalizedDigits cs = p := by
      unfold normalizedDigits
      rw [hpe]
      rfl
    simp only [ParseTime, if_pos hv, hpe, hoursOf, minutesOf, hnd, interpretHHMM]
    split_ifs with h1 h2 <;> simp [hv] <;> omega
  · simp [ParseTime, hv]

/-- C7: `ParseTime` normalizes accepted input by digit count after
stripping the colon: 1 or 2 digits become the hour with minutes "00"
(zero-padded to two digits, so "7" parses to 07:00), 3 digits are
left-padded with a single '0' (so "730" and "7:30" both parse to 07:30),
and 4 digits are read directly as HHMM (so "1400" parses to 14:00). -/
theorem claim_C7_digit_count_normalization :
    (∀ ds : List Char, ds.all Char.isDigit = true → ds.length = 1 →
      ParseTime ds = interpretHHMM ('0' :: ds ++ ['0', '0'])) ∧
    (∀ ds : List Char, ds.all Char.isDigit = true → ds.length = 2 →
      ParseTime ds = interpretHHMM (ds ++ ['0', '0'])) ∧
    (∀ ds : List Char, ds.all Char.isDigit = true → ds.length = 3 →
      ParseTime ds = interpretHHMM ('0' :: ds)) ∧
    (∀ ds : List Char, ds.all Char.isDigit = true → ds.length = 4 →
      ParseTime ds = interpretHHMM ds) ∧
    ParseTime ['7'] = some ⟨7, 0, 0, 0⟩ ∧
    ParseTime ['7', '3', '0'] = some ⟨7, 30, 0, 0⟩ ∧
    ParseTime ['7', ':', '3', '0'] = some ⟨7, 30, 0, 0⟩ ∧
    ParseTime ['1', '4', '0', '0'] = some ⟨14, 0, 0, 0⟩ := by
  refine ⟨?_, ?_, ?_, ?_, by decide, by decide, by decide, by decide⟩ <;>
    · intro ds hall hlen
      have hv : validTimeFormat ds = true := by
        unfold validTimeFormat
        rw [Bool.or_eq_true]
        left
        rw [Bool.and_eq_true, Bool.and_eq_true]
        exact ⟨⟨decide_eq_true (by omega), decide_eq_true (by omega)⟩, hall⟩
      have hf := filter_colon_of_all_digits hall
      unfold ParseTime padNormalized
      rw [if_pos hv, hf, hlen]

theorem claim_C7_digit_count_normalization_witness :
    (['7'] : List Char).all Char.isDigit = true ∧ (['7'] : List Char).length = 1 ∧
    ParseTime ['7'] = interpretHHMM ('0' :: ['7'] ++ ['0', '0']) :=
  ⟨by decide, by decide,
    claim_C7_digit_count_normalization.1 ['7'] (by decide) (by decide)⟩

set_option maxHeartbeats 2000000 in
/-- C6: for every canonical "HH:MM" string with HH in 00–23 and MM in
00–59, `ParseTime` succeeds and `FormatTime`'s zero-padded 24-hour "HH:MM"
rendering of the returned value reproduces the original string exactly;
the returned value has zero seconds and zero sub-second components. -/
theorem claim_C6_canonical_roundtrip : ∀ h : Nat, h < 24 → ∀ m : Nat, m < 60 →
    ParseTime (pad2 h ++ ':' :: pad2 m) = some ⟨h, m, 0, 0⟩ ∧
    FormatTime ⟨h, m, 0, 0⟩ = pad2 h ++ ':' :: pad2 m := by
  decide

theorem claim_C6_canonical_roundtrip_witness :
    (9 : Nat) < 24 ∧ (5 : Nat) < 60 ∧
    (ParseTime (pad2 9 ++ ':' :: pad2 5) = some ⟨9, 5, 0, 0⟩ ∧
     FormatTime ⟨9, 5, 0, 0⟩ = pad2 9 ++ ':' :: pad2 5) :=
  ⟨by decide, by decide, claim_C6_canonical_roundtrip 9 (by decide) 5 (by decide)⟩
